import Mathlib

/-!
Verification of the unblob chunk-extraction core: the chunk model and overlap
algebra, inner-chunk removal, unknown-gap computation (both the `processing.py`
half-open variant and the legacy `strategies.py` inclusive variant), the YARA
candidate scan loop, the per-chunk extraction driver decisions, the per-task
error isolation wrapper, and the chunk carver.

Byte offsets are embedded as `Int` (Python integers are unbounded).
-/

namespace Unblob

/-- Modelled from the spec: `models.py` is not part of the sources; §3 of the
spec defines a Chunk as a half-open interval with fields `start_offset` and
`end_offset`, `size = end - start`, and containment
`A contains B ↔ A.start ≤ B.start ∧ B.end ≤ A.end ∧ A ≠ B`. -/
structure Chunk where
  start_offset : Int
  end_offset : Int
deriving DecidableEq, Repr

/-- `Chunk.size`, from spec §3: `size = end - start`. -/
def Chunk.size (c : Chunk) : Int := c.end_offset - c.start_offset

/-- Modelled from the spec: `Chunk.contains` of `models.py` (absent from the
sources), spec §3: `A contains B ↔ A.start ≤ B.start ∧ B.end ≤ A.end ∧ A ≠ B`. -/
def Chunk.contains (a b : Chunk) : Bool :=
  decide (a.start_offset ≤ b.start_offset) &&
  decide (b.end_offset ≤ a.end_offset) &&
  decide (a ≠ b)

/-- Comparison used by `sorted(chunks, key=attrgetter("size"), reverse=True)`:
stable descending sort by size. -/
def sizeGe (a b : Chunk) : Bool := decide (b.size ≤ a.size)

/-- Comparison used by `sorted(chunks, key=attrgetter("start_offset"))`. -/
def startLe (a b : Chunk) : Bool := decide (a.start_offset ≤ b.start_offset)

/-- Stable insertion of an element in front of the first member not strictly
below it. -/
def insertSorted (le : α → α → Bool) (a : α) : List α → List α
  | [] => [a]
  | b :: l => if le a b then a :: b :: l else b :: insertSorted le a l

/-- Python's `sorted`: a stable sort. For a total preorder `le` the stable
sort of a list is unique, so this structurally recursive insertion sort is
the exact semantics of `sorted(..., key=...)` (and, with the flipped
comparison, of `reverse=True`). -/
def pySorted (le : α → α → Bool) : List α → List α
  | [] => []
  | a :: l => insertSorted le a (pySorted le l)

/-- The loop body shared by both `remove_inner_chunks` implementations:
append `chunk` to `outer_chunks` unless some accepted chunk contains it. -/
def keepOuter (outer_chunks : List Chunk) (chunk : Chunk) : List Chunk :=
  if outer_chunks.any (fun outer => outer.contains chunk) then outer_chunks
  else outer_chunks ++ [chunk]

/-- `remove_inner_chunks` from `processing.py` (lines 280-299): return `[]` on
empty input, otherwise sort by size descending, seed the result with the
largest chunk, and append each remaining chunk unless an already-accepted
chunk contains it. -/
def remove_inner_chunks (chunks : List Chunk) : List Chunk :=
  if chunks.isEmpty then []
  else
    match pySorted sizeGe chunks with
    | [] => []
    | first :: rest => rest.foldl keepOuter [first]

/-- `remove_inner_chunks` from `strategies.py` (lines 52-60): same loop but with
no guard for the empty list; `chunks_by_size[0]` raises `IndexError` on an
empty input, embedded as `none`. -/
def strategies_remove_inner_chunks (chunks : List Chunk) : Option (List Chunk) :=
  match pySorted sizeGe chunks with
  | [] => none
  | first :: rest => some (rest.foldl keepOuter [first])

/-- `calculate_unknown_chunks` from `processing.py` (lines 302-335), half-open
convention: `[]` for empty input or zero file size; otherwise sort by start
offset, emit `[0, first.start)` when `first.start ≠ 0`, emit
`[prev.end, next.start)` for each consecutive pair with
`next.start - prev.end ≠ 0`, and emit `[last.end, file_size)` when
`last.end < file_size`. `UnknownChunk` carries the same two offsets as
`Chunk`, so gaps are embedded as `Chunk`s. -/
def calculate_unknown_chunks (chunks : List Chunk) (file_size : Int) : List Chunk :=
  if chunks.isEmpty || file_size = 0 then []
  else
    match pySorted startLe chunks with
    | [] => []
    | first :: rest =>
      let head_gap := if first.start_offset ≠ 0 then [Chunk.mk 0 first.start_offset] else []
      let middle := ((first :: rest).zip rest).filterMap fun p =>
        if p.2.start_offset - p.1.end_offset ≠ 0 then
          some (Chunk.mk p.1.end_offset p.2.start_offset)
        else none
      let lastc := (first :: rest).getLast (List.cons_ne_nil _ _)
      let tail_gap :=
        if lastc.end_offset < file_size then [Chunk.mk lastc.end_offset file_size] else []
      head_gap ++ middle ++ tail_gap

/-- `calculate_unknown_chunks` from `strategies.py` (lines 71-105), inclusive
convention: `[]` for `file_size = 0`; one whole-file unknown chunk
`(0, file_size - 1)` for an empty input; otherwise gaps with inclusive end
offsets (`+1`/`-1` adjustments, adjacency when the offset difference is 1). -/
def strategies_calculate_unknown_chunks (chunks : List Chunk) (file_size : Int) :
    List Chunk :=
  if file_size = 0 then []
  else if chunks.isEmpty then [Chunk.mk 0 (file_size - 1)]
  else
    match pySorted startLe chunks with
    | [] => []
    | first :: rest =>
      let head_gap :=
        if first.start_offset ≠ 0 then [Chunk.mk 0 (first.start_offset - 1)] else []
      let middle := ((first :: rest).zip rest).filterMap fun p =>
        if p.2.start_offset - p.1.end_offset ≠ 1 then
          some (Chunk.mk (p.1.end_offset + 1) (p.2.start_offset - 1))
        else none
      let lastc := (first :: rest).getLast (List.cons_ne_nil _ _)
      let tail_gap :=
        if lastc.end_offset < file_size - 1 then
          [Chunk.mk (lastc.end_offset + 1) (file_size - 1)]
        else []
      head_gap ++ middle ++ tail_gap

/-- Number of intervals of `l` that cover the byte position `x`
(half-open convention). -/
def covered (l : List Chunk) (x : Int) : Nat :=
  l.countP fun c => decide (c.start_offset ≤ x) && decide (x < c.end_offset)

/-- Two chunks occupy disjoint byte ranges (half-open convention). -/
def disj (a b : Chunk) : Prop :=
  a.end_offset ≤ b.start_offset ∨ b.end_offset ≤ a.start_offset

instance : DecidablePred fun p : Chunk × Chunk => disj p.1 p.2 := by
  intro p; unfold disj; infer_instance

instance (a b : Chunk) : Decidable (disj a b) := by
  unfold disj; infer_instance

/-- A chunk is valid over a file of size `N` (spec §3 invariant):
`0 ≤ start < end ≤ N`. -/
def validChunk (N : Int) (c : Chunk) : Prop :=
  0 ≤ c.start_offset ∧ c.start_offset < c.end_offset ∧ c.end_offset ≤ N

instance (N : Int) (c : Chunk) : Decidable (validChunk N c) := by
  unfold validChunk; infer_instance

/-! ### The YARA candidate scan loop of `strategies.py` -/

/-- A handler as seen by `strategies.search_chunks_by_priority` (lines 19-49):
its `YARA_MATCH_OFFSET` and its `calculate_chunk`. For a fixed file,
`calculate_chunk(LimitedStartReader(file, real_offset), real_offset)` is a
function of `real_offset` alone, abstracted here. -/
structure ScanHandler where
  yara_match_offset : Int
  calculate_chunk : Int → Option Chunk

/-- The inner loop of `strategies.search_chunks_by_priority` over the string
matches of one YARA result: for each match offset it computes
`real_offset = offset + handler.YARA_MATCH_OFFSET`, invokes
`handler.calculate_chunk` at `real_offset`, and collects the returned chunk
unless it is `None`. The second component records the trace of offsets at
which `calculate_chunk` was invoked. -/
def scan_matches (h : ScanHandler) (match_offsets : List Int) :
    List Chunk × List Int :=
  match_offsets.foldl
    (fun acc offset =>
      let real_offset := offset + h.yara_match_offset
      let invoked := acc.2 ++ [real_offset]
      match h.calculate_chunk real_offset with
      | none => (acc.1, invoked)
      | some chunk => (acc.1 ++ [chunk], invoked))
    ([], [])

/-! ### The per-chunk extraction decisions of `processing._FileTask._extract_chunk` -/

/-- Where an extractor is pointed: the original input file, or a carved copy
of the byte range. -/
inductive ExtractSource where
  | originalInput : ExtractSource
  | carvedFile (s e : Int) : ExtractSource
deriving DecidableEq, Repr

/-- Filesystem-visible actions of `_FileTask._extract_chunk`. -/
inductive ExtractAction where
  | carveChunk (s e : Int) : ExtractAction
  | invokeExtractor (src : ExtractSource) : ExtractAction
  | unlinkCarved (s e : Int) : ExtractAction
deriving DecidableEq, Repr

/-- `_FileTask._extract_chunk` from `processing.py` (lines 228-265), as the
sequence of actions it performs for one valid chunk: when the chunk spans the
whole file (`start_offset == 0 and end_offset == size`) carving is skipped and
the extractor runs on the original input path; otherwise the chunk is carved,
the extractor runs on the carved file, and (unless `keep_extracted_chunks`)
the carved file is unlinked afterwards. -/
def extract_chunk_actions (size : Int) (keep_extracted_chunks : Bool)
    (chunk : Chunk) : List ExtractAction :=
  let is_whole_file_chunk :=
    chunk.start_offset == 0 && chunk.end_offset == size
  let skip_carving := is_whole_file_chunk
  if skip_carving then
    [ExtractAction.invokeExtractor ExtractSource.originalInput]
  else
    [ExtractAction.carveChunk chunk.start_offset chunk.end_offset,
     ExtractAction.invokeExtractor
       (ExtractSource.carvedFile chunk.start_offset chunk.end_offset)] ++
    (if keep_extracted_chunks then []
     else [ExtractAction.unlinkCarved chunk.start_offset chunk.end_offset])

/-! ### The task isolation wrapper `Processor.process_task` -/

/-- A task: a path at a recursion depth (spec §3). -/
structure PyTask where
  path : String
  depth : Nat
deriving DecidableEq, Repr

/-- Modelled from the spec: reports of `report.py` (absent from the sources);
only the `UnknownError` constructor matters here, carrying the caught
exception. -/
inductive PyReport where
  | unknownError (exc : String) : PyReport
  | other (data : String) : PyReport
deriving DecidableEq, Repr

/-- Modelled from the spec: `TaskResult` of `models.py` (absent from the
sources): the accumulator of reports and newly discovered tasks. -/
structure PyTaskResult where
  reports : List PyReport
  new_tasks : List PyTask
deriving DecidableEq, Repr

/-- `Processor.process_task` from `processing.py` (lines 110-121). The body
`_process_task` mutates the fresh `TaskResult` and may raise; this is embedded
as a step function returning the accumulated result together with the
exception, if one escaped. `process_task` catches any exception, appends an
`UnknownError` report to the accumulated result, and always returns the
result. -/
def process_task (step : PyTask → PyTaskResult × Option String)
    (task : PyTask) : PyTaskResult :=
  match step task with
  | (result, none) => result
  | (result, some exc) =>
    { result with reports := result.reports ++ [PyReport.unknownError exc] }

/-! ### The carver `extractor.carve_chunk_to_file` -/

/-- `carve_chunk_to_file` from `extractor.py` (lines 30-41): the name of the
written file is `f"{chunk.start_offset}-{chunk.end_offset}.{name}"` (decimal
offsets) and its contents are `file.seek(chunk.start_offset)` followed by
`file.read(chunk.size)`, i.e. the bytes of the input from `start_offset` up to
but excluding `end_offset`. The file is a list of bytes. -/
def carve_chunk_to_file (file : List UInt8) (chunk : Chunk) (name : String) :
    String × List UInt8 :=
  (toString chunk.start_offset ++ "-" ++ toString chunk.end_offset ++ "." ++ name,
   (file.drop chunk.start_offset.toNat).take chunk.size.toNat)

/-- The bytes of the 9-byte file `"test file"` used by
`TestCarveUnknownChunks.test_one_chunk`: ASCII `t e s t SP f i l e`. -/
def testFileBytes : List UInt8 := [116, 101, 115, 116, 32, 102, 105, 108, 101]

/-! ### Stable sort lemmas -/

theorem insertSorted_perm (le : α → α → Bool) (a : α) (l : List α) :
    List.Perm (insertSorted le a l) (a :: l) := by
  induction l with
  | nil => rfl
  | cons b t ih =>
    simp only [insertSorted]
    split
    · rfl
    · exact (List.Perm.cons b ih).trans (List.Perm.swap a b t)

theorem pySorted_perm (le : α → α → Bool) (l : List α) :
    List.Perm (pySorted le l) l := by
  induction l with
  | nil => rfl
  | cons a t ih =>
    exact (insertSorted_perm le a (pySorted le t)).trans (List.Perm.cons a ih)

theorem mem_pySorted (le : α → α → Bool) {l : List α} {a : α} :
    a ∈ pySorted le l ↔ a ∈ l :=
  (pySorted_perm le l).mem_iff

theorem pairwise_insertSorted (le : α → α → Bool)
    (trans : ∀ x y z, le x y → le y z → le x z)
    (total : ∀ x y, le x y || le y x) (a : α) {l : List α}
    (h : l.Pairwise (fun x y => le x y)) :
    (insertSorted le a l).Pairwise (fun x y => le x y) := by
  induction l with
  | nil => simp [insertSorted]
  | cons b t ih =>
    rcases h with _ | ⟨hb, ht⟩
    simp only [insertSorted]
    split
    · rename_i hab
      refine List.Pairwise.cons ?_ (List.Pairwise.cons hb ht)
      intro z hz
      rcases List.mem_cons.mp hz with rfl | hz
      · exact hab
      · exact trans a b z hab (hb z hz)
    · rename_i hab
      have hba : le b a := by
        have := total a b
        simp only [Bool.or_eq_true] at this
        rcases this with h' | h'
        · exact absurd h' hab
        · exact h'
      refine List.Pairwise.cons ?_ (ih ht)
      intro z hz
      have : z ∈ a :: t := (insertSorted_perm le a t).mem_iff.mp hz
      rcases List.mem_cons.mp this with rfl | hz'
      · exact hba
      · exact hb z hz'

theorem pairwise_pySorted (le : α → α → Bool)
    (trans : ∀ x y z, le x y → le y z → le x z)
    (total : ∀ x y, le x y || le y x) (l : List α) :
    (pySorted le l).Pairwise (fun x y => le x y) := by
  induction l with
  | nil => exact List.Pairwise.nil
  | cons a t ih => exact pairwise_insertSorted le trans total a ih

theorem insertSorted_of_le (le : α → α → Bool) (a : α) {l : List α}
    (h : ∀ b ∈ l.head?, le a b) : insertSorted le a l = a :: l := by
  cases l with
  | nil => rfl
  | cons b t => simp only [insertSorted, h b rfl, if_true]

theorem pySorted_of_pairwise (le : α → α → Bool) {l : List α}
    (h : l.Pairwise (fun x y => le x y)) : pySorted le l = l := by
  induction l with
  | nil => rfl
  | cons a t ih =>
    rcases h with _ | ⟨ha, ht⟩
    simp only [pySorted, ih ht]
    refine insertSorted_of_le le a ?_
    intro b hb
    cases t with
    | nil => simp at hb
    | cons c t' =>
      simp only [List.head?_cons, Option.mem_def, Option.some.injEq] at hb
      exact hb ▸ ha c (List.mem_cons_self c t')

theorem pySorted_ne_nil (le : α → α → Bool) {l : List α} (h : l ≠ []) :
    pySorted le l ≠ [] := by
  intro hc
  exact h ((pySorted_perm le l).symm.trans (hc ▸ List.Perm.refl _)).eq_nil

/-- `sizeGe` is transitive. -/
theorem sizeGe_trans : ∀ x y z : Chunk, sizeGe x y → sizeGe y z → sizeGe x z := by
  intro x y z hxy hyz
  simp only [sizeGe, decide_eq_true_eq] at *
  omega

/-- `sizeGe` is total. -/
theorem sizeGe_total : ∀ x y : Chunk, sizeGe x y || sizeGe y x := by
  intro x y
  simp only [sizeGe, Bool.or_eq_true, decide_eq_true_eq]
  omega

/-- `startLe` is transitive. -/
theorem startLe_trans : ∀ x y z : Chunk, startLe x y → startLe y z → startLe x z := by
  intro x y z hxy hyz
  simp only [startLe, decide_eq_true_eq] at *
  omega

/-- `startLe` is total. -/
theorem startLe_total : ∀ x y : Chunk, startLe x y || startLe y x := by
  intro x y
  simp only [startLe, Bool.or_eq_true, decide_eq_true_eq]
  omega

/-! ### Gap computation, recursively -/

/-- The middle gaps of `calculate_unknown_chunks`: one gap per consecutive
pair of the (sorted) list whose offsets differ. -/
def middleGaps (l : List Chunk) : List Chunk :=
  (l.zip l.tail).filterMap fun p =>
    if p.2.start_offset - p.1.end_offset ≠ 0 then
      some (Chunk.mk p.1.end_offset p.2.start_offset)
    else none

/-- Recursive form of the gap computation: `p` is the end of the previously
seen chunk (initially 0), a gap `[p, c.start)` is emitted before each chunk
starting beyond `p`, and a final gap `[p, N)` is emitted when `p < N`. -/
def gapsFrom (N : Int) : Int → List Chunk → List Chunk
  | p, [] => if p < N then [Chunk.mk p N] else []
  | p, c :: rest =>
    (if p ≠ c.start_offset then [Chunk.mk p c.start_offset] else []) ++
    gapsFrom N c.end_offset rest

/-- The chunks interleaved with their gaps, in byte order. -/
def interleaved (N : Int) : Int → List Chunk → List Chunk
  | p, [] => if p < N then [Chunk.mk p N] else []
  | p, c :: rest =>
    (if p ≠ c.start_offset then [Chunk.mk p c.start_offset] else []) ++
    c :: interleaved N c.end_offset rest

theorem middleGaps_cons_cons (a b : Chunk) (t : List Chunk) :
    middleGaps (a :: b :: t) =
      (if b.start_offset - a.end_offset ≠ 0 then
        [Chunk.mk a.end_offset b.start_offset]
      else []) ++ middleGaps (b :: t) := by
  by_cases hc : b.start_offset - a.end_offset = 0
  · simp [middleGaps, hc]
  · simp [middleGaps, hc]

theorem gapsFrom_cons_eq (N : Int) (first : Chunk) (rest : List Chunk) :
    ∀ p : Int,
      gapsFrom N p (first :: rest) =
        (if p ≠ first.start_offset then [Chunk.mk p first.start_offset] else []) ++
        middleGaps (first :: rest) ++
        (if ((first :: rest).getLast (List.cons_ne_nil _ _)).end_offset < N then
          [Chunk.mk ((first :: rest).getLast (List.cons_ne_nil _ _)).end_offset N]
        else []) := by
  induction rest generalizing first with
  | nil =>
    intro p
    simp [gapsFrom, middleGaps]
  | cons b t ih =>
    intro p
    have hlast : (first :: b :: t).getLast (List.cons_ne_nil _ _) =
        (b :: t).getLast (List.cons_ne_nil _ _) := List.getLast_cons _
    have hif : (if first.end_offset ≠ b.start_offset then
          [Chunk.mk first.end_offset b.start_offset] else ([] : List Chunk)) =
        (if b.start_offset - first.end_offset ≠ 0 then
          [Chunk.mk first.end_offset b.start_offset] else []) := by
      by_cases hc : first.end_offset = b.start_offset
      · rw [if_neg (by simp [hc]), if_neg (by omega)]
      · rw [if_pos hc, if_pos (by omega)]
    show (if p ≠ first.start_offset then [Chunk.mk p first.start_offset] else []) ++
        gapsFrom N first.end_offset (b :: t) = _
    rw [ih b first.end_offset, middleGaps_cons_cons, hlast, hif]
    simp only [List.append_assoc]

/-- On a nonempty chunk list and nonzero file size, `calculate_unknown_chunks`
is the recursive gap computation over the list sorted by start offset. -/
theorem calculate_unknown_chunks_eq (chunks : List Chunk) (N : Int)
    (hne : chunks ≠ []) (hN : N ≠ 0) :
    calculate_unknown_chunks chunks N = gapsFrom N 0 (pySorted startLe chunks) := by
  have hs : pySorted startLe chunks ≠ [] := pySorted_ne_nil _ hne
  cases h : pySorted startLe chunks with
  | nil => exact absurd h hs
  | cons first rest =>
    rw [gapsFrom_cons_eq]
    have hhead : (if first.start_offset ≠ 0 then
          [Chunk.mk 0 first.start_offset] else ([] : List Chunk)) =
        (if (0 : Int) ≠ first.start_offset then
          [Chunk.mk 0 first.start_offset] else []) := by
      by_cases hc : first.start_offset = 0
      · rw [if_neg (by simp [hc]), if_neg (by simp [hc])]
      · rw [if_pos hc, if_pos (Ne.symm hc)]
    unfold calculate_unknown_chunks
    rw [if_neg (by simp [hN, List.isEmpty_iff, hne]), h]
    show (if first.start_offset ≠ 0 then [Chunk.mk 0 first.start_offset] else []) ++
        middleGaps (first :: rest) ++
        (if ((first :: rest).getLast (List.cons_ne_nil _ _)).end_offset < N then
          [Chunk.mk ((first :: rest).getLast (List.cons_ne_nil _ _)).end_offset N]
        else []) = _
    rw [hhead]

theorem interleaved_perm (N : Int) :
    ∀ (S : List Chunk) (p : Int),
      List.Perm (interleaved N p S) (S ++ gapsFrom N p S) := by
  intro S
  induction S with
  | nil => intro p; simp [interleaved, gapsFrom]
  | cons c rest ih =>
    intro p
    show List.Perm
      ((if p ≠ c.start_offset then [Chunk.mk p c.start_offset] else []) ++
        c :: interleaved N c.end_offset rest)
      ((c :: rest) ++
        ((if p ≠ c.start_offset then [Chunk.mk p c.start_offset] else []) ++
          gapsFrom N c.end_offset rest))
    by_cases hc : p = c.start_offset
    · simp only [hc, ne_eq, not_true_eq_false, if_neg, ite_self]
      rw [if_neg (by simp)]
      simp only [List.nil_append, List.cons_append]
      exact (ih c.end_offset).cons c
    · rw [if_pos hc]
      refine List.Perm.trans (((ih c.end_offset).cons c).cons (Chunk.mk p c.start_offset)) ?_
      refine List.Perm.trans
        (List.Perm.swap c (Chunk.mk p c.start_offset)
          (rest ++ gapsFrom N c.end_offset rest)) ?_
      exact (List.perm_middle.symm).cons c

theorem interleaved_cons_ne (N p : Int) (c : Chunk) (rest : List Chunk) :
    interleaved N p (c :: rest) ≠ [] := by
  show ((if p ≠ c.start_offset then [Chunk.mk p c.start_offset] else []) ++
    c :: interleaved N c.end_offset rest) ≠ []
  simp

/-- Positions covered exactly once: the interleaving of a sorted disjoint
valid chunk list with its gaps covers `[p, N)` with multiplicity one. -/
theorem covered_interleaved (N : Int) :
    ∀ (S : List Chunk) (p x : Int),
      S.Chain' (fun a b => a.end_offset ≤ b.start_offset) →
      (∀ c ∈ S, c.start_offset < c.end_offset ∧ c.end_offset ≤ N) →
      (∀ c ∈ S.head?, p ≤ c.start_offset) →
      p ≤ N →
      covered (interleaved N p S) x = if p ≤ x ∧ x < N then 1 else 0 := by
  intro S
  induction S with
  | nil =>
    intro p x _ _ _ hpN
    show covered (if p < N then [Chunk.mk p N] else []) x = _
    by_cases h : p < N
    · rw [if_pos h]
      unfold covered
      simp only [List.countP_cons, List.countP_nil, Bool.and_eq_true, decide_eq_true_eq]
      split_ifs <;> omega
    · rw [if_neg h]
      unfold covered
      simp only [List.countP_nil]
      split_ifs <;> omega
  | cons c rest ih =>
    intro p x hchain hval hp hpN
    obtain ⟨hcr1, hcr2⟩ := List.chain'_cons'.mp hchain
    have hcv := hval c (List.mem_cons_self c rest)
    have hpc : p ≤ c.start_offset := hp c rfl
    have hrec := ih c.end_offset x hcr2
      (fun d hd => hval d (List.mem_cons_of_mem c hd)) hcr1 hcv.2
    show covered ((if p ≠ c.start_offset then [Chunk.mk p c.start_offset] else []) ++
        c :: interleaved N c.end_offset rest) x = _
    unfold covered at hrec ⊢
    rw [List.countP_append, List.countP_cons, hrec]
    by_cases hne : p = c.start_offset
    · rw [if_neg (by simp [hne])]
      simp only [List.countP_nil, Bool.and_eq_true, decide_eq_true_eq]
      split_ifs <;> omega
    · rw [if_pos hne]
      simp only [List.countP_cons, List.countP_nil, Bool.and_eq_true, decide_eq_true_eq]
      split_ifs <;> omega

/-- Every interval in the interleaving lies in `[p, N]` and is nonempty. -/
theorem interleaved_bounds (N : Int) :
    ∀ (S : List Chunk) (p : Int),
      S.Chain' (fun a b => a.end_offset ≤ b.start_offset) →
      (∀ c ∈ S, c.start_offset < c.end_offset ∧ c.end_offset ≤ N) →
      (∀ c ∈ S.head?, p ≤ c.start_offset) →
      ∀ g ∈ interleaved N p S,
        p ≤ g.start_offset ∧ g.start_offset < g.end_offset ∧ g.end_offset ≤ N := by
  intro S
  induction S with
  | nil =>
    intro p _ _ _ g hg
    by_cases h : p < N
    · have : g ∈ [Chunk.mk p N] := by
        simpa [interleaved, h] using hg
      simp only [List.mem_singleton] at this
      subst this
      exact ⟨le_refl _, h, le_refl _⟩
    · simp [interleaved, h] at hg
  | cons c rest ih =>
    intro p hchain hval hp g hg
    obtain ⟨hcr1, hcr2⟩ := List.chain'_cons'.mp hchain
    have hcv := hval c (List.mem_cons_self c rest)
    have hpc : p ≤ c.start_offset := hp c rfl
    have hrec := ih c.end_offset hcr2
      (fun d hd => hval d (List.mem_cons_of_mem c hd)) hcr1
    have hg' : g ∈ (if p ≠ c.start_offset then [Chunk.mk p c.start_offset] else []) ++
        c :: interleaved N c.end_offset rest := hg
    rcases List.mem_append.mp hg' with hg1 | hg2
    · by_cases hne : p = c.start_offset
      · simp [hne] at hg1
      · rw [if_pos hne, List.mem_singleton] at hg1
        subst hg1
        refine ⟨le_refl _, lt_of_le_of_ne hpc hne, ?_⟩
        show c.start_offset ≤ N
        have := hcv.1
        have := hcv.2
        omega
    · rcases List.mem_cons.mp hg2 with rfl | hg3
      · exact ⟨hpc, hcv.1, hcv.2⟩
      · obtain ⟨h1, h2, h3⟩ := hrec g hg3
        refine ⟨?_, h2, h3⟩
        have := hcv.1
        omega

/-- The first interval of a nonempty interleaving starts at `p`. -/
theorem interleaved_head (N : Int) (S : List Chunk) (p : Int) {g : Chunk}
    (h : (interleaved N p S).head? = some g) : g.start_offset = p := by
  cases S with
  | nil =>
    by_cases hc : p < N
    · simp only [interleaved, if_pos hc, List.head?_cons, Option.some.injEq] at h
      rw [← h]
    · simp [interleaved, hc] at h
  | cons c rest =>
    by_cases hc : p = c.start_offset
    · have : (interleaved N p (c :: rest)).head? = some c := by
        show ((if p ≠ c.start_offset then [Chunk.mk p c.start_offset] else []) ++
          c :: interleaved N c.end_offset rest).head? = some c
        rw [if_neg (by simp [hc])]
        rfl
      rw [this] at h
      cases h
      exact hc.symm
    · have : (interleaved N p (c :: rest)).head? = some (Chunk.mk p c.start_offset) := by
        show ((if p ≠ c.start_offset then [Chunk.mk p c.start_offset] else []) ++
          c :: interleaved N c.end_offset rest).head? = some (Chunk.mk p c.start_offset)
        rw [if_pos hc]
        rfl
      rw [this] at h
      cases h
      rfl

/-- The interleaving is a tiling: each interval ends where the next starts. -/
theorem interleaved_chain (N : Int) :
    ∀ (S : List Chunk) (p : Int),
      S.Chain' (fun a b => a.end_offset ≤ b.start_offset) →
      (∀ c ∈ S, c.start_offset < c.end_offset ∧ c.end_offset ≤ N) →
      (∀ c ∈ S.head?, p ≤ c.start_offset) →
      (interleaved N p S).Chain' (fun a b => a.end_offset = b.start_offset) := by
  intro S
  induction S with
  | nil =>
    intro p _ _ _
    by_cases h : p < N
    · show List.Chain' _ (if p < N then [Chunk.mk p N] else [])
      rw [if_pos h]
      exact List.chain'_singleton _
    · show List.Chain' _ (if p < N then [Chunk.mk p N] else [])
      rw [if_neg h]
      exact List.chain'_nil
  | cons c rest ih =>
    intro p hchain hval hp
    obtain ⟨hcr1, hcr2⟩ := List.chain'_cons'.mp hchain
    have hrec := ih c.end_offset hcr2
      (fun d hd => hval d (List.mem_cons_of_mem c hd)) hcr1
    have hlink : ∀ y ∈ (interleaved N c.end_offset rest).head?,
        c.end_offset = y.start_offset := by
      intro y hy
      exact (interleaved_head N rest c.end_offset hy).symm
    have htail : List.Chain' (fun a b => a.end_offset = b.start_offset)
        (c :: interleaved N c.end_offset rest) :=
      List.chain'_cons'.mpr ⟨hlink, hrec⟩
    show List.Chain' _ ((if p ≠ c.start_offset then [Chunk.mk p c.start_offset] else []) ++
      c :: interleaved N c.end_offset rest)
    by_cases hne : p = c.start_offset
    · rw [if_neg (by simp [hne])]
      exact htail
    · rw [if_pos hne]
      exact List.chain'_cons.mpr ⟨rfl, htail⟩

/-- The last interval of a nonempty interleaving ends at `N`. -/
theorem interleaved_last (N : Int) :
    ∀ (S : List Chunk) (p : Int),
      (∀ c ∈ S, c.end_offset ≤ N) → p ≤ N →
      ∀ g, (interleaved N p S).getLast? = some g → g.end_offset = N := by
  intro S
  induction S with
  | nil =>
    intro p _ _ g hg
    by_cases hc : p < N
    · simp only [interleaved, if_pos hc, List.getLast?_singleton, Option.some.injEq] at hg
      rw [← hg]
    · simp [interleaved, hc] at hg
  | cons c rest ih =>
    intro p hval hpN g hg
    have hval' : ∀ d ∈ rest, d.end_offset ≤ N :=
      fun d hd => hval d (List.mem_cons_of_mem c hd)
    have hcN : c.end_offset ≤ N := hval c (List.mem_cons_self c rest)
    have hg' : ((if p ≠ c.start_offset then [Chunk.mk p c.start_offset] else []) ++
        c :: interleaved N c.end_offset rest).getLast? = some g := hg
    rw [List.getLast?_append_cons] at hg'
    cases hrec : interleaved N c.end_offset rest with
    | nil =>
      rw [hrec] at hg'
      simp only [List.getLast?_singleton, Option.some.injEq] at hg'
      subst hg'
      cases rest with
      | nil =>
        have : ¬ c.end_offset < N := by
          intro hlt
          rw [show interleaved N c.end_offset [] =
            (if c.end_offset < N then [Chunk.mk c.end_offset N] else []) from rfl,
            if_pos hlt] at hrec
          exact List.cons_ne_nil _ _ hrec
        omega
      | cons d rest' => exact absurd hrec (interleaved_cons_ne N c.end_offset d rest')
    | cons g' rec' =>
      rw [hrec] at hg'
      rw [List.getLast?_cons_cons] at hg'
      exact ih c.end_offset hval' hcN g (by rw [hrec]; exact hg')

/-! ### Containment and the inner-chunk removal fold -/

theorem contains_eq_true_iff (a b : Chunk) :
    a.contains b = true ↔
      (a.start_offset ≤ b.start_offset ∧ b.end_offset ≤ a.end_offset ∧ a ≠ b) := by
  simp [Chunk.contains, and_assoc]

/-- A chunk of size at most that of `b` never contains `b`. -/
theorem contains_false_of_size_le {c b : Chunk} (h : c.size ≤ b.size) :
    c.contains b = false := by
  cases hb : c.contains b
  · rfl
  · exfalso
    rw [contains_eq_true_iff] at hb
    obtain ⟨h1, h2, h3⟩ := hb
    apply h3
    cases c with
    | mk cs ce =>
      cases b with
      | mk bs be =>
        simp only [Chunk.size] at h
        simp only at h1 h2
        have hs : cs = bs := by omega
        have he : ce = be := by omega
        rw [hs, he]

/-- Invariants of the `remove_inner_chunks` fold: starting from accepted
chunks `acc` whose sizes dominate the remaining `rest` (itself sorted by
descending size) and which contain none of each other, the fold only appends
elements of `rest`, keeps the descending size order, and yields a list in
which no chunk contains another. -/
theorem foldl_keepOuter_master :
    ∀ (rest acc : List Chunk),
      (∀ a ∈ acc, ∀ r ∈ rest, r.size ≤ a.size) →
      rest.Pairwise (fun a b => b.size ≤ a.size) →
      acc.Pairwise (fun a b => b.size ≤ a.size) →
      (∀ a ∈ acc, ∀ b ∈ acc, a.contains b = false) →
      ∃ ext : List Chunk,
        rest.foldl keepOuter acc = acc ++ ext ∧
        (∀ c ∈ ext, c ∈ rest) ∧
        (rest.foldl keepOuter acc).Pairwise (fun a b => b.size ≤ a.size) ∧
        (∀ a ∈ rest.foldl keepOuter acc, ∀ b ∈ rest.foldl keepOuter acc,
          a.contains b = false) := by
  intro rest
  induction rest with
  | nil =>
    intro acc _ _ h3 h4
    exact ⟨[], by simp, by simp, by simpa using h3, by simpa using h4⟩
  | cons c rest ih =>
    intro acc h1 h2 h3 h4
    rcases h2 with _ | ⟨hc_rest, h2'⟩
    have hfold : (c :: rest).foldl keepOuter acc = rest.foldl keepOuter (keepOuter acc c) :=
      rfl
    by_cases han : acc.any (fun outer => outer.contains c) = true
    · have hk : keepOuter acc c = acc := by rw [keepOuter, if_pos han]
      obtain ⟨ext, he, hm, hp, hn⟩ := ih acc
        (fun a ha r hr => h1 a ha r (List.mem_cons_of_mem c hr)) h2' h3 h4
      refine ⟨ext, ?_, fun d hd => List.mem_cons_of_mem c (hm d hd), ?_, ?_⟩
      · rw [hfold, hk, he]
      · rw [hfold, hk]; exact hp
      · rw [hfold, hk]; exact hn
    · have hk : keepOuter acc c = acc ++ [c] := by
        rw [keepOuter, if_neg han]
      have hanf : ∀ a ∈ acc, a.contains c = false := by
        have := List.any_eq_false.mp (Bool.eq_false_iff.mpr han)
        intro a ha
        simpa using this a ha
      have h1' : ∀ a ∈ acc ++ [c], ∀ r ∈ rest, r.size ≤ a.size := by
        intro a ha r hr
        rcases List.mem_append.mp ha with ha' | ha'
        · exact h1 a ha' r (List.mem_cons_of_mem c hr)
        · rw [List.mem_singleton] at ha'
          subst ha'
          exact hc_rest r hr
      have h3' : (acc ++ [c]).Pairwise (fun a b => b.size ≤ a.size) := by
        rw [List.pairwise_append]
        exact ⟨h3, List.pairwise_singleton _ _,
          fun a ha b hb => (List.mem_singleton.mp hb) ▸
            h1 a ha c (List.mem_cons_self c rest)⟩
      have h4' : ∀ a ∈ acc ++ [c], ∀ b ∈ acc ++ [c], a.contains b = false := by
        intro a ha b hb
        rcases List.mem_append.mp ha with ha' | ha' <;>
          rcases List.mem_append.mp hb with hb' | hb'
        · exact h4 a ha' b hb'
        · rw [List.mem_singleton] at hb'
          subst hb'
          exact hanf a ha'
        · rw [List.mem_singleton] at ha'
          subst ha'
          exact contains_false_of_size_le (h1 b hb' a (List.mem_cons_self a rest))
        · rw [List.mem_singleton] at ha' hb'
          subst ha'
          subst hb'
          exact contains_false_of_size_le (le_refl _)
      obtain ⟨ext, he, hm, hp, hn⟩ := ih (acc ++ [c]) h1' h2' h3' h4'
      refine ⟨c :: ext, ?_, ?_, ?_, ?_⟩
      · rw [hfold, hk, he, List.append_assoc]
        rfl
      · intro d hd
        rcases List.mem_cons.mp hd with rfl | hd'
        · exact List.mem_cons_self d rest
        · exact List.mem_cons_of_mem c (hm d hd')
      · rw [hfold, hk]; exact hp
      · rw [hfold, hk]; exact hn

/-- Folding chunks none of which contains another appends them all. -/
theorem foldl_keepOuter_append :
    ∀ (ext acc : List Chunk),
      (∀ a ∈ acc ++ ext, ∀ b ∈ acc ++ ext, a.contains b = false) →
      ext.foldl keepOuter acc = acc ++ ext := by
  intro ext
  induction ext with
  | nil => intro acc _; simp
  | cons c t ih =>
    intro acc hno
    have hmemc : c ∈ acc ++ c :: t :=
      List.mem_append.mpr (Or.inr (List.mem_cons_self c t))
    have hany : acc.any (fun outer => outer.contains c) = false := by
      rw [List.any_eq_false]
      intro a ha
      have := hno a (List.mem_append.mpr (Or.inl ha)) c hmemc
      simp [this]
    have hk : keepOuter acc c = acc ++ [c] := by
      rw [keepOuter, if_neg (by simp [hany])]
    have hre : (acc ++ [c]) ++ t = acc ++ c :: t := by simp
    show t.foldl keepOuter (keepOuter acc c) = acc ++ c :: t
    rw [hk, ih (acc ++ [c]) (by rw [hre]; exact hno), hre]

/-- Structure of `remove_inner_chunks` on a nonempty input: the result is
nonempty, made of input chunks, sorted by descending size, and contains no
chunk contained in another of its chunks. -/
theorem remove_inner_chunks_facts (chunks : List Chunk) (hne : chunks ≠ []) :
    remove_inner_chunks chunks ≠ [] ∧
    (∀ c ∈ remove_inner_chunks chunks, c ∈ chunks) ∧
    (remove_inner_chunks chunks).Pairwise (fun a b => b.size ≤ a.size) ∧
    (∀ a ∈ remove_inner_chunks chunks, ∀ b ∈ remove_inner_chunks chunks,
      a.contains b = false) := by
  have hs : pySorted sizeGe chunks ≠ [] := pySorted_ne_nil _ hne
  have hru : remove_inner_chunks chunks =
      match pySorted sizeGe chunks with
      | [] => []
      | first :: rest => rest.foldl keepOuter [first] := by
    unfold remove_inner_chunks
    rw [if_neg (by simp [List.isEmpty_iff, hne])]
  cases h : pySorted sizeGe chunks with
  | nil => exact absurd h hs
  | cons first rest =>
    rw [hru, h]
    have hsorted : (first :: rest).Pairwise (fun a b => b.size ≤ a.size) := by
      have := pairwise_pySorted sizeGe sizeGe_trans sizeGe_total chunks
      rw [h] at this
      exact this.imp (by intro a b hab; simpa [sizeGe] using hab)
    rcases hsorted with _ | ⟨hfirst, hrest⟩
    obtain ⟨ext, he, hm, hp, hn⟩ := foldl_keepOuter_master rest [first]
      (by
        intro a ha r hr
        rw [List.mem_singleton] at ha
        subst ha
        exact hfirst r hr)
      hrest (List.pairwise_singleton _ _)
      (by
        intro a ha b hb
        rw [List.mem_singleton] at ha hb
        subst ha
        subst hb
        exact contains_false_of_size_le (le_refl _))
    have hmem : ∀ c ∈ rest.foldl keepOuter [first], c ∈ chunks := by
      intro d hd
      rw [he] at hd
      have hd' : d ∈ first :: rest := by
        rcases List.mem_append.mp hd with h1 | h2
        · rw [List.mem_singleton] at h1
          subst h1
          exact List.mem_cons_self d rest
        · exact List.mem_cons_of_mem first (hm d h2)
      have : d ∈ pySorted sizeGe chunks := h ▸ hd'
      exact (mem_pySorted sizeGe).mp this
    exact ⟨by show rest.foldl keepOuter [first] ≠ []; rw [he]; simp, hmem, hp, hn⟩

/-- Intervals of the interleaving are pairwise ordered end-to-start. -/
theorem interleaved_pairwise (N : Int) :
    ∀ (S : List Chunk) (p : Int),
      S.Chain' (fun a b => a.end_offset ≤ b.start_offset) →
      (∀ c ∈ S, c.start_offset < c.end_offset ∧ c.end_offset ≤ N) →
      (∀ c ∈ S.head?, p ≤ c.start_offset) →
      (interleaved N p S).Pairwise (fun a b => a.end_offset ≤ b.start_offset) := by
  intro S
  induction S with
  | nil =>
    intro p _ _ _
    show List.Pairwise _ (if p < N then [Chunk.mk p N] else [])
    by_cases h : p < N
    · rw [if_pos h]; exact List.pairwise_singleton _ _
    · rw [if_neg h]; exact List.Pairwise.nil
  | cons c rest ih =>
    intro p hchain hval hp
    obtain ⟨hcr1, hcr2⟩ := List.chain'_cons'.mp hchain
    have hcv := hval c (List.mem_cons_self c rest)
    have hpc : p ≤ c.start_offset := hp c rfl
    have hrecP := ih c.end_offset hcr2
      (fun d hd => hval d (List.mem_cons_of_mem c hd)) hcr1
    have hrecB := interleaved_bounds N rest c.end_offset hcr2
      (fun d hd => hval d (List.mem_cons_of_mem c hd)) hcr1
    have htail : List.Pairwise (fun a b => a.end_offset ≤ b.start_offset)
        (c :: interleaved N c.end_offset rest) := by
      rw [List.pairwise_cons]
      exact ⟨fun g hg => (hrecB g hg).1, hrecP⟩
    show List.Pairwise _
      ((if p ≠ c.start_offset then [Chunk.mk p c.start_offset] else []) ++
        c :: interleaved N c.end_offset rest)
    by_cases hne : p = c.start_offset
    · rw [if_neg (by simp [hne])]
      exact htail
    · rw [if_pos hne]
      rw [List.singleton_append, List.pairwise_cons]
      refine ⟨?_, htail⟩
      intro g hg
      rcases List.mem_cons.mp hg with rfl | hg'
      · exact le_refl _
      · show c.start_offset ≤ g.start_offset
        have h1 := (hrecB g hg').1
        have h2 := hcv.1
        omega

/-- No gaps remain over a tiling: if consecutive intervals meet exactly, the
first starts at `p` and the last ends at `N`, the gap computation is empty. -/
theorem gapsFrom_eq_nil_of_tiling (N : Int) :
    ∀ (T : List Chunk) (p : Int),
      T.Chain' (fun a b => a.end_offset = b.start_offset) →
      (∀ g, T.head? = some g → g.start_offset = p) →
      (∀ g, T.getLast? = some g → g.end_offset = N) →
      T ≠ [] →
      gapsFrom N p T = [] := by
  intro T
  induction T with
  | nil => intro p _ _ _ hne; exact absurd rfl hne
  | cons c rest ih =>
    intro p hchain hhead hlast _
    have hc : c.start_offset = p := hhead c rfl
    show (if p ≠ c.start_offset then [Chunk.mk p c.start_offset] else []) ++
        gapsFrom N c.end_offset rest = []
    rw [if_neg (by simp [hc]), List.nil_append]
    cases rest with
    | nil =>
      have hcN : c.end_offset = N := hlast c rfl
      show (if c.end_offset < N then [Chunk.mk c.end_offset N] else []) = []
      rw [if_neg (by omega)]
    | cons d rest' =>
      obtain ⟨hcd, hchain'⟩ := List.chain'_cons.mp hchain
      refine ih c.end_offset hchain' ?_ ?_ (List.cons_ne_nil _ _)
      · intro g hg
        simp only [List.head?_cons, Option.some.injEq] at hg
        subst hg
        exact hcd.symm
      · intro g hg
        refine hlast g ?_
        rw [List.getLast?_cons_cons]
        exact hg

/-- A list sorted by start offset whose nonempty intervals are pairwise
disjoint is an end-to-start chain. -/
theorem pairwise_end_start_of_sorted_disjoint {S : List Chunk}
    (hsorted : S.Pairwise (fun a b => a.start_offset ≤ b.start_offset))
    (hdisj : S.Pairwise disj)
    (hnonempty : ∀ c ∈ S, c.start_offset < c.end_offset) :
    S.Pairwise (fun a b => a.end_offset ≤ b.start_offset) := by
  refine (hsorted.and hdisj).imp_of_mem ?_
  intro a b ha hb hab
  rcases hab.2 with h | h
  · exact h
  · have h1 := hab.1
    have h2 := hnonempty b hb
    omega

/-! ### Claims -/

/-- Claim C1 (amended): for every non-empty list `C` of chunks valid over a
file of size `N` whose outer chunks `remove_inner_chunks C` are pairwise
disjoint (the code keeps partial overlaps, which violate the original claim),
the intervals of `remove_inner_chunks C` together with those of
`calculate_unknown_chunks (remove_inner_chunks C) N` cover `[0, N)` exactly
once: every position of `[0, N)` lies in exactly one interval and no other
position lies in any, the intervals are pairwise disjoint, and sorted by
start offset they are ordered end-to-start. -/
theorem claim1_gap_coverage (C : List Chunk) (N : Int) (hne : C ≠ [])
    (hval : ∀ c ∈ C, validChunk N c)
    (hdisj : (remove_inner_chunks C).Pairwise disj) :
    (∀ x : Int,
      covered (remove_inner_chunks C ++
        calculate_unknown_chunks (remove_inner_chunks C) N) x =
      if 0 ≤ x ∧ x < N then 1 else 0) ∧
    (remove_inner_chunks C ++
      calculate_unknown_chunks (remove_inner_chunks C) N).Pairwise disj ∧
    (pySorted startLe (remove_inner_chunks C ++
      calculate_unknown_chunks (remove_inner_chunks C) N)).Chain'
      (fun a b => a.end_offset ≤ b.start_offset) := by
  obtain ⟨hOne, hOmem, hOsorted, hOnc⟩ := remove_inner_chunks_facts C hne
  have hOval : ∀ c ∈ remove_inner_chunks C, validChunk N c :=
    fun c hc => hval c (hOmem c hc)
  have hN : 0 < N := by
    obtain ⟨c, hc⟩ := List.exists_mem_of_ne_nil _ hOne
    obtain ⟨h1, h2, h3⟩ := hOval c hc
    omega
  have hSperm : List.Perm (pySorted startLe (remove_inner_chunks C))
      (remove_inner_chunks C) := pySorted_perm startLe _
  have hSval : ∀ c ∈ pySorted startLe (remove_inner_chunks C), validChunk N c :=
    fun c hc => hOval c (hSperm.mem_iff.mp hc)
  have hSsorted : (pySorted startLe (remove_inner_chunks C)).Pairwise
      (fun a b => a.start_offset ≤ b.start_offset) :=
    (pairwise_pySorted startLe startLe_trans startLe_total _).imp
      (by intro a b hab; simpa [startLe] using hab)
  have hSdisj : (pySorted startLe (remove_inner_chunks C)).Pairwise disj :=
    (hSperm.pairwise_iff (fun h => h.symm)).mpr hdisj
  have hSes : (pySorted startLe (remove_inner_chunks C)).Pairwise
      (fun a b => a.end_offset ≤ b.start_offset) :=
    pairwise_end_start_of_sorted_disjoint hSsorted hSdisj
      (fun c hc => (hSval c hc).2.1)
  have hSchain := hSes.chain'
  have hShead : ∀ c ∈ (pySorted startLe (remove_inner_chunks C)).head?,
      (0 : Int) ≤ c.start_offset :=
    fun c hc => (hSval c (List.mem_of_mem_head? hc)).1
  have hSvalpair : ∀ c ∈ pySorted startLe (remove_inner_chunks C),
      c.start_offset < c.end_offset ∧ c.end_offset ≤ N :=
    fun c hc => ⟨(hSval c hc).2.1, (hSval c hc).2.2⟩
  have hcalc : calculate_unknown_chunks (remove_inner_chunks C) N =
      gapsFrom N 0 (pySorted startLe (remove_inner_chunks C)) :=
    calculate_unknown_chunks_eq _ N hOne (by omega)
  have hLperm : List.Perm
      (remove_inner_chunks C ++ calculate_unknown_chunks (remove_inner_chunks C) N)
      (interleaved N 0 (pySorted startLe (remove_inner_chunks C))) := by
    rw [hcalc]
    exact ((hSperm.symm).append_right _).trans
      (interleaved_perm N (pySorted startLe (remove_inner_chunks C)) 0).symm
  have hIpair := interleaved_pairwise N (pySorted startLe (remove_inner_chunks C)) 0
    hSchain hSvalpair hShead
  have hLdisj : (remove_inner_chunks C ++
      calculate_unknown_chunks (remove_inner_chunks C) N).Pairwise disj :=
    (hLperm.pairwise_iff (fun h => h.symm)).mpr (hIpair.imp fun h => Or.inl h)
  refine ⟨?_, hLdisj, ?_⟩
  · intro x
    have h1 : covered (remove_inner_chunks C ++
        calculate_unknown_chunks (remove_inner_chunks C) N) x =
        covered (interleaved N 0 (pySorted startLe (remove_inner_chunks C))) x :=
      hLperm.countP_eq _
    rw [h1]
    exact covered_interleaved N _ 0 x hSchain hSvalpair hShead (by omega)
  · have hperm2 : List.Perm
        (pySorted startLe (remove_inner_chunks C ++
          calculate_unknown_chunks (remove_inner_chunks C) N))
        (interleaved N 0 (pySorted startLe (remove_inner_chunks C))) :=
      (pySorted_perm startLe _).trans hLperm
    have hsorted2 : (pySorted startLe (remove_inner_chunks C ++
        calculate_unknown_chunks (remove_inner_chunks C) N)).Pairwise
        (fun a b => a.start_offset ≤ b.start_offset) :=
      (pairwise_pySorted startLe startLe_trans startLe_total _).imp
        (by intro a b hab; simpa [startLe] using hab)
    have hdisj2 : (pySorted startLe (remove_inner_chunks C ++
        calculate_unknown_chunks (remove_inner_chunks C) N)).Pairwise disj :=
      ((pySorted_perm startLe _).pairwise_iff (fun h => h.symm)).mpr hLdisj
    have hnonempty2 : ∀ g ∈ pySorted startLe (remove_inner_chunks C ++
        calculate_unknown_chunks (remove_inner_chunks C) N),
        g.start_offset < g.end_offset := by
      intro g hg
      have hgI : g ∈ interleaved N 0 (pySorted startLe (remove_inner_chunks C)) :=
        hperm2.mem_iff.mp hg
      exact (interleaved_bounds N _ 0 hSchain hSvalpair hShead g hgI).2.1
    exact (pairwise_end_start_of_sorted_disjoint hsorted2 hdisj2 hnonempty2).chain'

/-- Claim C1 counterexample: chunks `[(0,5), (3,8)]` over a file of size 8
are valid and non-empty, `remove_inner_chunks` keeps both (partial overlap is
not containment), and position 4 is covered twice by the combined output, so
the intervals are neither disjoint nor an exact cover. -/
theorem claim1_gap_coverage_cex :
    (∀ c ∈ [Chunk.mk 0 5, Chunk.mk 3 8], validChunk 8 c) ∧
    remove_inner_chunks [Chunk.mk 0 5, Chunk.mk 3 8] =
      [Chunk.mk 0 5, Chunk.mk 3 8] ∧
    covered (remove_inner_chunks [Chunk.mk 0 5, Chunk.mk 3 8] ++
      calculate_unknown_chunks
        (remove_inner_chunks [Chunk.mk 0 5, Chunk.mk 3 8]) 8) 4 = 2 := by
  refine ⟨by decide, by decide, by decide⟩

/-- Claim C1 witness: for the valid disjoint chunk list `[(0,5), (6,10)]`
over a file of size 13, position 7 is covered exactly once. -/
theorem claim1_gap_coverage_witness :
    covered (remove_inner_chunks [Chunk.mk 0 5, Chunk.mk 6 10] ++
      calculate_unknown_chunks
        (remove_inner_chunks [Chunk.mk 0 5, Chunk.mk 6 10]) 13) 7 = 1 := by
  have h := claim1_gap_coverage [Chunk.mk 0 5, Chunk.mk 6 10] 13
    (by decide) (by decide) (by decide)
  have h7 := h.1 7
  simpa using h7

/-- `remove_inner_chunks` fixes any nonempty list already sorted by
descending size in which no chunk contains another. -/
theorem remove_inner_chunks_fixed (O : List Chunk) (hne : O ≠ [])
    (hsorted : O.Pairwise (fun a b => b.size ≤ a.size))
    (hnc : ∀ a ∈ O, ∀ b ∈ O, a.contains b = false) :
    remove_inner_chunks O = O := by
  have hps : pySorted sizeGe O = O :=
    pySorted_of_pairwise sizeGe
      (hsorted.imp (by intro a b h; simpa [sizeGe] using h))
  cases O with
  | nil => exact absurd rfl hne
  | cons o1 orest =>
    unfold remove_inner_chunks
    rw [if_neg (by simp), hps]
    show orest.foldl keepOuter [o1] = o1 :: orest
    have hno : ∀ a ∈ [o1] ++ orest, ∀ b ∈ [o1] ++ orest,
        a.contains b = false := by
      intro a ha b hb
      exact hnc a (by simpa using ha) b (by simpa using hb)
    rw [foldl_keepOuter_append orest [o1] hno]
    rfl

/-- Facts about a valid pairwise-disjoint chunk list sorted by start offset. -/
theorem pySorted_start_facts (C : List Chunk) (N : Int)
    (hval : ∀ c ∈ C, validChunk N c) (hdisj : C.Pairwise disj) :
    (pySorted startLe C).Chain' (fun a b => a.end_offset ≤ b.start_offset) ∧
    (∀ c ∈ pySorted startLe C,
      c.start_offset < c.end_offset ∧ c.end_offset ≤ N) ∧
    (∀ c ∈ (pySorted startLe C).head?, (0 : Int) ≤ c.start_offset) := by
  have hperm : List.Perm (pySorted startLe C) C := pySorted_perm startLe C
  have hval' : ∀ c ∈ pySorted startLe C, validChunk N c :=
    fun c hc => hval c (hperm.mem_iff.mp hc)
  have hsorted : (pySorted startLe C).Pairwise
      (fun a b => a.start_offset ≤ b.start_offset) :=
    (pairwise_pySorted startLe startLe_trans startLe_total C).imp
      (by intro a b hab; simpa [startLe] using hab)
  have hdisj' : (pySorted startLe C).Pairwise disj :=
    (hperm.pairwise_iff (fun h => h.symm)).mpr hdisj
  refine ⟨(pairwise_end_start_of_sorted_disjoint hsorted hdisj'
    (fun c hc => (hval' c hc).2.1)).chain', ?_, ?_⟩
  · exact fun c hc => ⟨(hval' c hc).2.1, (hval' c hc).2.2⟩
  · exact fun c hc => (hval' c (List.mem_of_mem_head? hc)).1

/-- Claim C2 counterexample: neither implementation of
`calculate_unknown_chunks` maps chunks `[(0,5), (6,10)]` with file size 13 to
`[UnknownChunk(11,13)]`. -/
theorem claim2_gap_example_cex :
    calculate_unknown_chunks [Chunk.mk 0 5, Chunk.mk 6 10] 13 ≠
      [Chunk.mk 11 13] ∧
    strategies_calculate_unknown_chunks [Chunk.mk 0 5, Chunk.mk 6 10] 13 ≠
      [Chunk.mk 11 13] := by
  decide

/-- Claim C2 (amended): on chunks `[(0,5), (6,10)]` with file size 13 the
half-open `processing.py` implementation returns exactly
`[UnknownChunk(5,6), UnknownChunk(10,13)]` — the adjacent gap `[5,6)` of
size 1 IS emitted and the tail gap is `[10,13)` — while the inclusive
`strategies.py` implementation returns `[UnknownChunk(11,12)]`, matching its
test. -/
theorem claim2_gap_example :
    calculate_unknown_chunks [Chunk.mk 0 5, Chunk.mk 6 10] 13 =
      [Chunk.mk 5 6, Chunk.mk 10 13] ∧
    strategies_calculate_unknown_chunks [Chunk.mk 0 5, Chunk.mk 6 10] 13 =
      [Chunk.mk 11 12] := by
  decide

/-- Claim C3 counterexample: the `strategies.py` implementation turns the
empty input with file size 10 into one whole-file unknown chunk instead of
the empty list. -/
theorem claim3_empty_input_cex :
    strategies_calculate_unknown_chunks [] 10 = [Chunk.mk 0 9] ∧
    [Chunk.mk 0 9] ≠ ([] : List Chunk) := by
  decide

/-- Claim C3 (amended): the `processing.py` `calculate_unknown_chunks`
returns `[]` whenever the input is empty or the file size is 0; the
`strategies.py` version returns `[]` for file size 0 but maps an empty input
with nonzero file size to the single whole-file unknown chunk
`(0, file_size - 1)`. -/
theorem claim3_empty_input (file_size : Int) (C : List Chunk) :
    calculate_unknown_chunks [] file_size = [] ∧
    calculate_unknown_chunks C 0 = [] ∧
    strategies_calculate_unknown_chunks C 0 = [] ∧
    (file_size ≠ 0 →
      strategies_calculate_unknown_chunks [] file_size =
        [Chunk.mk 0 (file_size - 1)]) := by
  refine ⟨?_, ?_, ?_, ?_⟩
  · unfold calculate_unknown_chunks
    simp
  · unfold calculate_unknown_chunks
    simp
  · unfold strategies_calculate_unknown_chunks
    simp
  · intro h
    unfold strategies_calculate_unknown_chunks
    rw [if_neg h]
    simp

theorem claim3_empty_input_witness :
    calculate_unknown_chunks [] 10 = [] ∧
    calculate_unknown_chunks [Chunk.mk 0 5] 0 = [] ∧
    strategies_calculate_unknown_chunks [Chunk.mk 0 5] 0 = [] ∧
    strategies_calculate_unknown_chunks [] 10 = [Chunk.mk 0 9] := by
  have h := claim3_empty_input 10 [Chunk.mk 0 5]
  refine ⟨h.1, h.2.1, h.2.2.1, ?_⟩
  have h4 := h.2.2.2 (by decide)
  simpa using h4

/-- Claim C4: for every non-empty chunk list `C`, `remove_inner_chunks C`
(sort by size descending, seed with the largest, append unless an accepted
chunk contains it) yields a list in which no chunk is contained in another
chunk of the result; in particular
`remove_inner_chunks [(10,20), (11,13), (14,19)] = [(10,20)]`. -/
theorem claim4_remove_inner (C : List Chunk) (hne : C ≠ []) :
    (∀ b ∈ remove_inner_chunks C, ∀ a ∈ remove_inner_chunks C,
      a.contains b = false) ∧
    remove_inner_chunks [Chunk.mk 10 20, Chunk.mk 11 13, Chunk.mk 14 19] =
      [Chunk.mk 10 20] := by
  obtain ⟨_, _, _, h4⟩ := remove_inner_chunks_facts C hne
  exact ⟨fun b hb a ha => h4 a ha b hb, by decide⟩

theorem claim4_remove_inner_witness :
    (∀ b ∈ remove_inner_chunks [Chunk.mk 0 5, Chunk.mk 1 2],
      ∀ a ∈ remove_inner_chunks [Chunk.mk 0 5, Chunk.mk 1 2],
        a.contains b = false) ∧
    remove_inner_chunks [Chunk.mk 10 20, Chunk.mk 11 13, Chunk.mk 14 19] =
      [Chunk.mk 10 20] :=
  claim4_remove_inner [Chunk.mk 0 5, Chunk.mk 1 2] (by decide)

/-- Claim C5 counterexample: `calculate_unknown_chunks` applied to its own
output is not always empty: the gaps of `[(2,4)]` over a file of size 6 are
`[(0,2), (4,6)]`, whose gaps are `[(2,4)] ≠ []`. -/
theorem claim5_idempotence_cex :
    calculate_unknown_chunks (calculate_unknown_chunks [Chunk.mk 2 4] 6) 6 =
      [Chunk.mk 2 4] ∧
    [Chunk.mk 2 4] ≠ ([] : List Chunk) := by
  decide

/-- Claim C5 (amended): `remove_inner_chunks` is idempotent on every
non-empty chunk list; and when the chunks are additionally valid over `N` and
pairwise disjoint, the gaps of the chunks together with their own gaps are
empty: `calculate_unknown_chunks (C ++ calculate_unknown_chunks C N) N = []`. -/
theorem claim5_idempotence (C : List Chunk) (N : Int) (hne : C ≠ []) :
    remove_inner_chunks (remove_inner_chunks C) = remove_inner_chunks C ∧
    ((∀ c ∈ C, validChunk N c) → C.Pairwise disj →
      calculate_unknown_chunks (C ++ calculate_unknown_chunks C N) N = []) := by
  obtain ⟨hOne, hOmem, hOsorted, hOnc⟩ := remove_inner_chunks_facts C hne
  constructor
  · exact remove_inner_chunks_fixed _ hOne hOsorted hOnc
  · intro hval hdisj
    obtain ⟨hSchain, hSvalpair, hShead⟩ := pySorted_start_facts C N hval hdisj
    have hN : 0 < N := by
      obtain ⟨c, hc⟩ := List.exists_mem_of_ne_nil _ hne
      obtain ⟨h1, h2, h3⟩ := hval c hc
      omega
    have hcalcC : calculate_unknown_chunks C N = gapsFrom N 0 (pySorted startLe C) :=
      calculate_unknown_chunks_eq C N hne (by omega)
    have hLperm : List.Perm (C ++ calculate_unknown_chunks C N)
        (interleaved N 0 (pySorted startLe C)) := by
      rw [hcalcC]
      exact (((pySorted_perm startLe C).symm).append_right _).trans
        (interleaved_perm N (pySorted startLe C) 0).symm
    have hTperm : List.Perm
        (pySorted startLe (C ++ calculate_unknown_chunks C N))
        (interleaved N 0 (pySorted startLe C)) :=
      (pySorted_perm startLe _).trans hLperm
    have hIpair := interleaved_pairwise N (pySorted startLe C) 0
      hSchain hSvalpair hShead
    have hIbounds := interleaved_bounds N (pySorted startLe C) 0
      hSchain hSvalpair hShead
    have hIstrict : (interleaved N 0 (pySorted startLe C)).Pairwise
        (fun a b => a.start_offset < b.start_offset) := by
      refine hIpair.imp_of_mem ?_
      intro a b ha _ hab
      have := (hIbounds a ha).2.1
      omega
    have hTsorted : (pySorted startLe (C ++ calculate_unknown_chunks C N)).Pairwise
        (fun a b => a.start_offset ≤ b.start_offset) :=
      (pairwise_pySorted startLe startLe_trans startLe_total _).imp
        (by intro a b hab; simpa [startLe] using hab)
    have hTne : (pySorted startLe (C ++ calculate_unknown_chunks C N)).Pairwise
        (fun a b => a.start_offset ≠ b.start_offset) :=
      (hTperm.pairwise_iff (fun h => h.symm)).mpr
        (hIstrict.imp fun h => ne_of_lt h)
    have hTstrict : (pySorted startLe (C ++ calculate_unknown_chunks C N)).Pairwise
        (fun a b => a.start_offset < b.start_offset) :=
      (hTsorted.and hTne).imp fun h => lt_of_le_of_ne h.1 h.2
    haveI : IsAntisymm Chunk (fun a b => a.start_offset < b.start_offset) :=
      ⟨fun a b h h' => absurd (lt_trans h h') (lt_irrefl _)⟩
    have hTeq : pySorted startLe (C ++ calculate_unknown_chunks C N) =
        interleaved N 0 (pySorted startLe C) :=
      List.eq_of_perm_of_sorted hTperm hTstrict hIstrict
    have hLne : C ++ calculate_unknown_chunks C N ≠ [] := by
      cases C with
      | nil => exact absurd rfl hne
      | cons a t => simp
    rw [calculate_unknown_chunks_eq _ N hLne (by omega), hTeq]
    refine gapsFrom_eq_nil_of_tiling N _ 0
      (interleaved_chain N _ 0 hSchain hSvalpair hShead)
      (fun g hg => interleaved_head N _ 0 hg)
      (fun g hg =>
        interleaved_last N _ 0 (fun d hd => (hSvalpair d hd).2) (by omega) g hg)
      ?_
    cases hS : pySorted startLe C with
    | nil => exact absurd hS (pySorted_ne_nil _ hne)
    | cons s1 srest => exact interleaved_cons_ne N 0 s1 srest

theorem claim5_idempotence_witness :
    remove_inner_chunks (remove_inner_chunks [Chunk.mk 0 5, Chunk.mk 6 10]) =
      remove_inner_chunks [Chunk.mk 0 5, Chunk.mk 6 10] ∧
    calculate_unknown_chunks ([Chunk.mk 0 5, Chunk.mk 6 10] ++
      calculate_unknown_chunks [Chunk.mk 0 5, Chunk.mk 6 10] 13) 13 = [] :=
  ⟨(claim5_idempotence [Chunk.mk 0 5, Chunk.mk 6 10] 13 (by decide)).1,
   (claim5_idempotence [Chunk.mk 0 5, Chunk.mk 6 10] 13 (by decide)).2
     (by decide) (by decide)⟩

/-- Claim C6: the code violates the claim. For a handler with
`YARA_MATCH_OFFSET = -257` (such as tar) and a YARA match at offset 0,
`strategies.search_chunks_by_priority` computes the negative candidate offset
`-257` and still invokes `handler.calculate_chunk` at it, instead of
discarding the candidate as the spec requires. -/
theorem claim6_negative_offset_scan :
    (scan_matches (ScanHandler.mk (-257) (fun _ => none)) [0]).2 = [-257] ∧
    ((-257 : Int) < 0) := by
  exact ⟨rfl, by decide⟩

/-- Claim C7: when a valid chunk spans the whole file, `_extract_chunk` skips
carving: it performs no carve action and invokes the extractor exactly on the
original input path. -/
theorem claim7_whole_file_in_place (size : Int) (keep : Bool) (chunk : Chunk)
    (h0 : chunk.start_offset = 0) (hs : chunk.end_offset = size) :
    (∀ a ∈ extract_chunk_actions size keep chunk,
      ∀ s e : Int, a ≠ ExtractAction.carveChunk s e) ∧
    ExtractAction.invokeExtractor ExtractSource.originalInput ∈
      extract_chunk_actions size keep chunk ∧
    (∀ src, ExtractAction.invokeExtractor src ∈ extract_chunk_actions size keep chunk →
      src = ExtractSource.originalInput) := by
  have hact : extract_chunk_actions size keep chunk =
      [ExtractAction.invokeExtractor ExtractSource.originalInput] := by
    unfold extract_chunk_actions
    simp [h0, hs]
  refine ⟨?_, ?_, ?_⟩
  · intro a ha s e
    rw [hact, List.mem_singleton] at ha
    subst ha
    simp
  · rw [hact]
    exact List.mem_singleton.mpr rfl
  · intro src hsrc
    rw [hact, List.mem_singleton] at hsrc
    cases hsrc
    rfl

theorem claim7_whole_file_in_place_witness :
    (∀ a ∈ extract_chunk_actions 9 false (Chunk.mk 0 9),
      ∀ s e : Int, a ≠ ExtractAction.carveChunk s e) ∧
    ExtractAction.invokeExtractor ExtractSource.originalInput ∈
      extract_chunk_actions 9 false (Chunk.mk 0 9) ∧
    (∀ src, ExtractAction.invokeExtractor src ∈
        extract_chunk_actions 9 false (Chunk.mk 0 9) →
      src = ExtractSource.originalInput) :=
  claim7_whole_file_in_place 9 false (Chunk.mk 0 9) rfl rfl

/-- Claim C8: `Processor.process_task` always returns a `TaskResult`: when the
body ends with an exception the exception is recorded as an `UnknownError`
report appended to the accumulated result; when it does not, the accumulated
result is returned unchanged; and the result for a task depends only on the
body's behaviour on that task, so one task's failure leaves others
unaffected. -/
theorem claim8_task_isolation (step : PyTask → PyTaskResult × Option String)
    (task : PyTask) :
    (∀ r exc, step task = (r, some exc) →
      process_task step task =
        PyTaskResult.mk (r.reports ++ [PyReport.unknownError exc]) r.new_tasks) ∧
    (∀ r, step task = (r, none) → process_task step task = r) ∧
    (∀ step' : PyTask → PyTaskResult × Option String,
      step' task = step task → process_task step' task = process_task step task) := by
  refine ⟨?_, ?_, ?_⟩
  · intro r exc h
    unfold process_task
    rw [h]
  · intro r h
    unfold process_task
    rw [h]
  · intro step' h
    unfold process_task
    rw [h]

theorem claim8_task_isolation_witness :
    process_task (fun _ => (PyTaskResult.mk [] [], some "boom"))
      (PyTask.mk "firmware.bin" 0) =
      PyTaskResult.mk [PyReport.unknownError "boom"] [] := by
  have h := claim8_task_isolation (fun _ => (PyTaskResult.mk [] [], some "boom"))
    (PyTask.mk "firmware.bin" 0)
  simpa using h.1 (PyTaskResult.mk [] []) "boom" rfl

/-- Claim C9: `carve_chunk_to_file` writes a file named
`<start>-<end>.<name>` with decimal offsets whose contents are exactly the
bytes of the input from `start_offset` up to but excluding `end_offset`; in
particular carving chunk `(0, 9)` from the 9-byte file `"test file"` under
the name `unknown` yields `0-9.unknown` containing exactly `"test file"`. -/
theorem claim9_carve (file : List UInt8) (chunk : Chunk) (name : String)
    (hs : 0 ≤ chunk.start_offset) (hlt : chunk.start_offset < chunk.end_offset)
    (he : chunk.end_offset ≤ (file.length : Int)) :
    (carve_chunk_to_file file chunk name).1 =
      toString chunk.start_offset ++ "-" ++ toString chunk.end_offset ++
        "." ++ name ∧
    (carve_chunk_to_file file chunk name).2.length = chunk.size.toNat ∧
    (∀ i : Nat, i < chunk.size.toNat →
      (carve_chunk_to_file file chunk name).2[i]? =
        file[chunk.start_offset.toNat + i]?) ∧
    carve_chunk_to_file testFileBytes (Chunk.mk 0 9) "unknown" =
      ("0-9.unknown", testFileBytes) := by
  refine ⟨rfl, ?_, ?_, ?_⟩
  · show ((file.drop chunk.start_offset.toNat).take chunk.size.toNat).length =
      chunk.size.toNat
    rw [List.length_take, List.length_drop]
    simp only [Chunk.size]
    omega
  · intro i hi
    show ((file.drop chunk.start_offset.toNat).take chunk.size.toNat)[i]? = _
    rw [List.getElem?_take_of_lt hi, List.getElem?_drop]
  · decide

theorem claim9_carve_witness :
    carve_chunk_to_file testFileBytes (Chunk.mk 0 9) "unknown" =
      ("0-9.unknown", testFileBytes) :=
  (claim9_carve testFileBytes (Chunk.mk 0 9) "unknown"
    (by decide) (by decide) (by decide)).2.2.2

/-- Claim C10: the two `remove_inner_chunks` implementations agree on every
non-empty chunk list; on the empty list the `processing.py` version returns
`[]` while the `strategies.py` version fails (indexes into an empty sorted
list), embedded as `none`. -/
theorem claim10_equiv (C : List Chunk) (hne : C ≠ []) :
    strategies_remove_inner_chunks C = some (remove_inner_chunks C) ∧
    strategies_remove_inner_chunks [] = none ∧
    remove_inner_chunks ([] : List Chunk) = [] := by
  refine ⟨?_, rfl, rfl⟩
  have hs : pySorted sizeGe C ≠ [] := pySorted_ne_nil _ hne
  unfold strategies_remove_inner_chunks remove_inner_chunks
  rw [if_neg (by simp [List.isEmpty_iff, hne])]
  cases h : pySorted sizeGe C with
  | nil => exact absurd h hs
  | cons first rest => rfl

theorem claim10_equiv_witness :
    strategies_remove_inner_chunks [Chunk.mk 1 2] =
      some (remove_inner_chunks [Chunk.mk 1 2]) ∧
    strategies_remove_inner_chunks [] = none ∧
    remove_inner_chunks ([] : List Chunk) = [] :=
  claim10_equiv [Chunk.mk 1 2] (by decide)

end Unblob
